import Mathlib

/-!
# counter-db: the synchronizing counter

A shallow embedding of `src/db/counter/counter.go` and the sync message of `src/db/msg/msg.go`.

Modelling conventions.

* Go `int` is the 64-bit two's-complement integer: values are `Int`, and every `+` and `*` of the
  source is followed by `wrapInt`.
* The semantics is sequential. Mutexes are erased, but the index expression that selects a mutex is
  kept, because it can raise the same index-out-of-range panic as any other slice index. Each lock
  slice is allocated by `SpawnCounter` next to the slice it guards, with the same length, and no
  slice is ever resized: `cvLocks` is indexed like `CounterValues`, `pushLocks` like
  `markedForPush`, `pullLocks` like `markedForPull`.
* A method that mutates the counter returns an `Outcome`: the state it reached, tagged with whether
  it returned or panicked. The HTTP handlers run under martini's recovery middleware, so a counter
  can be observed again after a panic.
* The network is not modelled. A sync message is the vector it carries.
-/

namespace CounterDb

/-! ## Go integers -/

/-- Smallest value of a Go `int`. -/
def minInt : Int := -9223372036854775808

/-- Largest value of a Go `int`. -/
def maxInt : Int := 9223372036854775807

/-- Reduction of a mathematical integer to the Go `int` that the machine stores. -/
def wrapInt (x : Int) : Int :=
  (x + 9223372036854775808) % 18446744073709551616 - 9223372036854775808

/-- The integers representable as a Go `int`. -/
def IsGoInt (x : Int) : Prop := minInt ≤ x ∧ x ≤ maxInt

instance (x : Int) : Decidable (IsGoInt x) := by
  unfold IsGoInt; infer_instance

/-- Slice indexing `xs[i]` by a Go `int`: `none` stands for the index-out-of-range panic. -/
def goIndex (xs : List Int) (i : Int) : Option Int :=
  if 0 ≤ i then xs[i.toNat]? else none

/-! ## Data model -/

/-- Outcome of a mutating method: the state reached, and whether the method returned or the
runtime raised an index-out-of-range panic. -/
inductive Outcome (σ : Type) where
  | done (s : σ)
  | indexPanic (s : σ)
  deriving DecidableEq, Repr

/-- State in which the method left the receiver. -/
def Outcome.state {σ : Type} : Outcome σ → σ
  | .done s => s
  | .indexPanic s => s

/-- Whether the method returned normally. -/
def Outcome.returned {σ : Type} : Outcome σ → Bool
  | .done _ => true
  | .indexPanic _ => false

/-- The `SyncMsg` struct of `msg.go`. -/
structure SyncMsg where
  CounterValues : List Int
  deriving DecidableEq, Repr

/-- The `Counter` struct of `counter.go`, without its three mutex slices. -/
structure Counter where
  name : String
  hostId : Int
  actors : List String
  markedForPush : List Int
  markedForPull : List Int
  CounterValues : List Int
  deriving DecidableEq, Repr

/-- `Counter.Serialize`: the sync message built from the current vector (JSON text elided). -/
def Counter.Serialize (this : Counter) : SyncMsg :=
  { CounterValues := this.CounterValues }

/-- `SpawnCounter`: every slice has one zero entry per actor. -/
def SpawnCounter (name : String) (actors : List String) (hostId : Int) : Counter :=
  { name := name
    hostId := hostId
    actors := actors
    markedForPush := List.replicate actors.length 0
    markedForPull := List.replicate actors.length 0
    CounterValues := List.replicate actors.length 0 }

/-! ## Merge -/

/-- Loop of `UpdateFromMsg`: `i` is the range index, the list is what is left of
`msg.CounterValues`. The inner test is the re-check made once the slot lock is held. -/
def updateLoop : List Int → Nat → List Int → Outcome (List Int)
  | cv, _, [] => .done cv
  | cv, i, k :: rest =>
    match cv[i]? with
    | none => .indexPanic cv
    | some v =>
      if v < k then
        if v < k then updateLoop (cv.set i k) (i + 1) rest
        else updateLoop cv (i + 1) rest
      else updateLoop cv (i + 1) rest

/-- `Counter.UpdateFromMsg`. -/
def Counter.UpdateFromMsg (this : Counter) (msg : SyncMsg) : Outcome Counter :=
  match updateLoop this.CounterValues 0 msg.CounterValues with
  | .done cv => .done { this with CounterValues := cv }
  | .indexPanic cv => .indexPanic { this with CounterValues := cv }

/-- Merge of two bare vectors: `UpdateFromMsg` seen as a function of the local and the incoming
vector. -/
def merge (A B : List Int) : Outcome (List Int) :=
  updateLoop A 0 B

/-! ## Add and GetLocalValue -/

/-- `Counter.Add`: `CounterValues[hostId] += value`. -/
def Counter.Add (this : Counter) (value : Int) : Outcome Counter :=
  match goIndex this.CounterValues this.hostId with
  | none => .indexPanic this
  | some v =>
    .done { this with
      CounterValues := this.CounterValues.set this.hostId.toNat (wrapInt (v + value)) }

/-- Loop of `GetLocalValue`: each iteration indexes `cvLocks[hostId]` before it accumulates. -/
def sumLoop (this : Counter) : Int → List Int → Option Int
  | accumulator, [] => some accumulator
  | accumulator, val :: rest =>
    match goIndex this.CounterValues this.hostId with
    | none => none
    | some _ => sumLoop this (wrapInt (accumulator + val)) rest

/-- `Counter.GetLocalValue`; `none` stands for the index-out-of-range panic. -/
def Counter.GetLocalValue (this : Counter) : Option Int :=
  sumLoop this 0 this.CounterValues

/-! ## Sequences of calls -/

/-- A call on the public mutating surface of a counter. -/
inductive Op where
  | add (delta : Int)
  | updateFromMsg (msg : SyncMsg)
  deriving DecidableEq, Repr

/-- One call. -/
def Counter.call (this : Counter) : Op → Outcome Counter
  | .add delta => this.Add delta
  | .updateFromMsg msg => this.UpdateFromMsg msg

/-- The observation points of a run: the initial state, then the state after each call. -/
def observations : Counter → List Op → List Counter
  | c, [] => [c]
  | c, op :: ops => c :: observations (c.call op).state ops

/-- Every `Add` of the run has a non-negative delta, and the sum it stores fits in a Go `int`. -/
def addsInRange : Counter → List Op → Bool
  | _, [] => true
  | c, .add delta :: ops =>
    decide (0 ≤ delta) &&
      (match goIndex c.CounterValues c.hostId with
        | none => true
        | some v => decide (IsGoInt (v + delta))) &&
      addsInRange (c.call (.add delta)).state ops
  | c, .updateFromMsg msg :: ops => addsInRange (c.call (.updateFromMsg msg)).state ops

/-- Slot-wise order on vectors: every slot of `a` exists in `b` with a value at least as large. -/
def SlotsLe (a b : List Int) : Prop :=
  ∀ (slot : Nat) (v : Int), a[slot]? = some v → ∃ w, b[slot]? = some w ∧ v ≤ w

/-! ## Push backoff -/

/-- Update of `backoff` after a failed push: `if backoff < 3000 { backoff *= 2 }`. -/
def nextBackoff (backoff : Int) : Int :=
  if backoff < 3000 then wrapInt (backoff * 2) else backoff

/-- Value of `backoff` in `syncToNeighborSingletonWithBackoff` after `n` consecutive failures. -/
def backoffAfter : Nat → Int
  | 0 => 10
  | n + 1 => nextBackoff (backoffAfter n)

/-- Bound passed to `rand.Intn`: `backoff/2`, Go division truncating toward zero. -/
def jitterBound (backoff : Int) : Int := Int.tdiv backoff 2

/-- Argument of `time.Sleep` on a failure: `backoff + rand.Intn(backoff/2)`, where `jitter` is the
value drawn. -/
def sleepDuration (backoff jitter : Int) : Int := wrapInt (backoff + jitter)

/-- Durations slept by the retry loop when the pushes fail consecutively, one jitter draw per
failure, starting from the given `backoff`. -/
def retrySleeps : Int → List Int → List Int
  | _, [] => []
  | backoff, jitter :: draws =>
    sleepDuration backoff jitter :: retrySleeps (nextBackoff backoff) draws

/-! ## Singleton guards -/

/-- Result of the entry section of a singleton wrapper. -/
inductive GuardResult where
  | skipped (s : Counter)
  | proceeds (s : Counter)
  | indexPanic (s : Counter)
  deriving DecidableEq, Repr

/-- Entry section of `syncToNeighborSingletonWithBackoff`: lock `pushLocks[actorNum]`, return if
`markedForPush[actorNum] == 1`, otherwise set it to 1. -/
def Counter.syncToNeighborSingletonWithBackoffGuard (this : Counter) (actorNum : Int) :
    GuardResult :=
  match goIndex this.markedForPush actorNum with
  | none => .indexPanic this
  | some flag =>
    if flag = 1 then .skipped this
    else .proceeds { this with markedForPush := this.markedForPush.set actorNum.toNat 1 }

/-- Entry section of `syncFromNeighborSingleton`: lock `pullLocks[actorNum]`, return if
`markedForPush[actorNum] == 1`, otherwise set `markedForPush[actorNum]` to 1. -/
def Counter.syncFromNeighborSingletonGuard (this : Counter) (actorNum : Int) : GuardResult :=
  match goIndex this.markedForPull actorNum with
  | none => .indexPanic this
  | some _ =>
    match goIndex this.markedForPush actorNum with
    | none => .indexPanic this
    | some flag =>
      if flag = 1 then .skipped this
      else .proceeds { this with markedForPush := this.markedForPush.set actorNum.toNat 1 }


/-! ## Concrete states -/

/-- A counter of a host with the given index and vector, one actor per slot, no sync in flight. -/
def sampleCounter (hostId : Int) (values : List Int) : Counter :=
  { name := "hits"
    hostId := hostId
    actors := values.map (fun _ => "10.0.0.1")
    markedForPush := values.map (fun _ => 0)
    markedForPull := values.map (fun _ => 0)
    CounterValues := values }

/-- A one-host counter state with the given arrays of in-flight flags. -/
def flaggedCounter (markedForPush markedForPull : List Int) : Counter :=
  { sampleCounter 0 (markedForPush.map (fun _ => 0)) with
    markedForPush := markedForPush
    markedForPull := markedForPull }

/-- The values `backoff` can take: 10 doubled up to the first value that is not below 3000. -/
def backoffValues : List Int := [10, 20, 40, 80, 160, 320, 640, 1280, 2560, 5120]

/-! ## Lemmas on the merge loop -/

/-- Run of the loop when the rest of the message fits in the vector: it returns, slots below
`i` and past the message are untouched, and each slot the message covers holds the maximum. -/
theorem updateLoop_fits (ks : List Int) : ∀ (cv : List Int) (i : Nat),
    i + ks.length ≤ cv.length →
    ∃ out, updateLoop cv i ks = .done out ∧ out.length = cv.length ∧
      (∀ j : Nat, j < i → out[j]? = cv[j]?) ∧
      (∀ j : Nat, i + ks.length ≤ j → out[j]? = cv[j]?) ∧
      (∀ (j : Nat) (v k : Int), cv[i + j]? = some v → ks[j]? = some k → out[i + j]? = some (max v k)) := by
  induction ks with
  | nil =>
    intro cv i _
    exact ⟨cv, rfl, rfl, fun _ _ => rfl, fun _ _ => rfl, by simp⟩
  | cons k rest ih =>
    intro cv i hlen
    simp only [List.length_cons] at hlen
    have hi : i < cv.length := by omega
    have hget : cv[i]? = some cv[i] := List.getElem?_eq_getElem hi
    by_cases hlt : cv[i] < k
    · obtain ⟨out, hrun, hl, hlow, hhigh, hmid⟩ := ih (cv.set i k) (i + 1) (by simp; omega)
      refine ⟨out, ?_, ?_, ?_, ?_, ?_⟩
      · simp [updateLoop, hget, hlt, hrun]
      · simpa using hl
      · intro j hj
        rw [hlow j (by omega), List.getElem?_set_ne (by omega)]
      · intro j hj
        simp only [List.length_cons] at hj
        rw [hhigh j (by omega), List.getElem?_set_ne (by omega)]
      · intro j v k' hv hk
        cases j with
        | zero =>
          simp only [Nat.add_zero, hget, Option.some.injEq] at hv
          simp only [List.getElem?_cons_zero, Option.some.injEq] at hk
          subst hv; subst hk
          rw [Nat.add_zero, hlow i (by omega), List.getElem?_set_self hi, max_eq_right (le_of_lt hlt)]
        | succ j =>
          have := hmid j v k' (by rw [List.getElem?_set_ne (by omega)]; rw [← hv]; congr 1; omega)
            (by simpa using hk)
          rw [← this]; congr 1; omega
    · obtain ⟨out, hrun, hl, hlow, hhigh, hmid⟩ := ih cv (i + 1) (by omega)
      refine ⟨out, ?_, hl, ?_, ?_, ?_⟩
      · simp [updateLoop, hget, hlt, hrun]
      · intro j hj
        exact hlow j (by omega)
      · intro j hj
        simp only [List.length_cons] at hj
        exact hhigh j (by omega)
      · intro j v k' hv hk
        cases j with
        | zero =>
          simp only [Nat.add_zero, hget, Option.some.injEq] at hv
          simp only [List.getElem?_cons_zero, Option.some.injEq] at hk
          subst hv; subst hk
          rw [Nat.add_zero, hlow i (by omega), hget, max_eq_left (not_lt.mp hlt)]
        | succ j =>
          have := hmid j v k' (by rw [← hv]; congr 1; omega) (by simpa using hk)
          rw [← this]; congr 1; omega


/-- The loop never changes the length of the vector and never lowers a slot, whether it runs to
the end or panics. -/
theorem updateLoop_state (ks : List Int) : ∀ (cv : List Int) (i : Nat),
    (updateLoop cv i ks).state.length = cv.length ∧
      ∀ (j : Nat) (v : Int), cv[j]? = some v →
        ∃ w, (updateLoop cv i ks).state[j]? = some w ∧ v ≤ w := by
  induction ks with
  | nil =>
    intro cv i
    exact ⟨rfl, fun j v h => ⟨v, h, le_refl v⟩⟩
  | cons k rest ih =>
    intro cv i
    cases hget : cv[i]? with
    | none =>
      have hrun : updateLoop cv i (k :: rest) = .indexPanic cv := by
        simp only [updateLoop, hget]
      rw [hrun]
      exact ⟨rfl, fun j v h => ⟨v, h, le_refl v⟩⟩
    | some u =>
      by_cases hlt : u < k
      · simp only [updateLoop, hget, hlt, if_true]
        obtain ⟨hl, hge⟩ := ih (cv.set i k) (i + 1)
        refine ⟨by simpa using hl, ?_⟩
        intro j v hv
        by_cases hij : i = j
        · subst hij
          have hi : i < cv.length := by
            by_contra hcon
            rw [List.getElem?_eq_none (by omega)] at hget
            cases hget
          rw [hget] at hv
          cases hv
          obtain ⟨w, hw, hle⟩ := hge i k (List.getElem?_set_self hi)
          exact ⟨w, hw, by omega⟩
        · exact hge j v (by rw [List.getElem?_set_ne hij]; exact hv)
      · simp only [updateLoop, hget, hlt, if_false]
        exact ih cv (i + 1)

/-- Merge of a vector that is no longer than the local one. -/
theorem merge_fits (A B : List Int) (h : B.length ≤ A.length) :
    ∃ out, merge A B = .done out ∧ out.length = A.length ∧
      (∀ (j : Nat) (v k : Int), A[j]? = some v → B[j]? = some k → out[j]? = some (max v k)) ∧
      (∀ j : Nat, B.length ≤ j → out[j]? = A[j]?) := by
  obtain ⟨out, hrun, hl, _, hhigh, hmid⟩ := updateLoop_fits B A 0 (by omega)
  refine ⟨out, hrun, hl, ?_, ?_⟩
  · intro j v k hv hk
    simpa using hmid j v k (by simpa using hv) hk
  · intro j hj
    exact hhigh j (by omega)

/-- Merge of a vector that is longer than the local one ends in a panic. -/
theorem updateLoop_overrun (ks : List Int) : ∀ (cv : List Int) (i : Nat),
    i ≤ cv.length → cv.length < i + ks.length → (updateLoop cv i ks).returned = false := by
  induction ks with
  | nil => intro cv i h0 h; simp at h; omega
  | cons k rest ih =>
    intro cv i h0 h
    simp only [List.length_cons] at h
    cases hget : cv[i]? with
    | none => simp [updateLoop, hget, Outcome.returned]
    | some u =>
      have hi : i < cv.length := by
        by_contra hcon
        rw [List.getElem?_eq_none (by omega)] at hget
        cases hget
      by_cases hlt : u < k
      · simp only [updateLoop, hget, hlt, if_true]
        exact ih _ _ (by simp; omega) (by simp; omega)
      · simp only [updateLoop, hget, hlt, if_false]
        exact ih _ _ (by omega) (by omega)

/-- Two vectors of one length with the same entries where both are defined are equal. -/
theorem list_eq_of_slots {A B : List Int} (hl : A.length = B.length)
    (h : ∀ (j : Nat) (a b : Int), A[j]? = some a → B[j]? = some b → a = b) : A = B := by
  apply List.ext_getElem? 
  intro j
  by_cases hj : j < A.length
  · have hj2 : j < B.length := by omega
    have hA : A[j]? = some A[j] := List.getElem?_eq_getElem hj
    have hB : B[j]? = some B[j] := List.getElem?_eq_getElem hj2
    rw [hA, hB, h j _ _ hA hB]
  · rw [List.getElem?_eq_none (by omega), List.getElem?_eq_none (by omega)]

/-- Merge of equally long vectors in closed form. -/
theorem merge_eq_zipWith (A B : List Int) (h : A.length = B.length) :
    merge A B = .done (List.zipWith max A B) := by
  obtain ⟨out, hrun, hl, hmid, _⟩ := merge_fits A B (by omega)
  rw [hrun]
  congr 1
  apply list_eq_of_slots (by simp [hl, h])
  intro j a b ha hb
  have hj : j < A.length := by
    by_contra hcon
    rw [List.getElem?_eq_none (by omega)] at ha
    cases ha
  have hj2 : j < B.length := by omega
  have hA : A[j]? = some A[j] := List.getElem?_eq_getElem hj
  have hB : B[j]? = some B[j] := List.getElem?_eq_getElem hj2
  rw [hmid j _ _ hA hB] at ha
  simp [List.getElem?_zipWith, hA, hB] at hb
  cases ha
  exact hb


/-- `UpdateFromMsg` is `merge` on the vector and leaves every other field alone. -/
theorem UpdateFromMsg_of_merge (this : Counter) (msg : SyncMsg) (out : List Int)
    (h : merge this.CounterValues msg.CounterValues = .done out) :
    this.UpdateFromMsg msg = .done { this with CounterValues := out } := by
  unfold merge at h
  simp only [Counter.UpdateFromMsg, h]

/-! ## Merge: slot-wise maximum (C1) -/

/-- C1. For every counter state and every sync message whose vector is as long as the counter's,
`UpdateFromMsg` returns, keeps the length of `CounterValues` and every other field, and leaves in
every slot `i` the maximum of the old `CounterValues[i]` and the incoming value at `i`. -/
theorem UpdateFromMsg_slotwise_max (this : Counter) (msg : SyncMsg)
    (hlen : msg.CounterValues.length = this.CounterValues.length) :
    ∃ next, this.UpdateFromMsg msg = .done next ∧
      next = { this with CounterValues := next.CounterValues } ∧
      next.CounterValues.length = this.CounterValues.length ∧
      ∀ (i : Nat) (v k : Int), this.CounterValues[i]? = some v → msg.CounterValues[i]? = some k →
        next.CounterValues[i]? = some (max v k) := by
  obtain ⟨out, hrun, hl, hmid, _⟩ :=
    merge_fits this.CounterValues msg.CounterValues (by omega)
  exact ⟨{ this with CounterValues := out }, UpdateFromMsg_of_merge this msg out hrun, rfl, hl, hmid⟩

/-- Instance of C1: the vector `[3, 0, 7]` merged with the message `[1, 4, 7]`. -/
theorem UpdateFromMsg_slotwise_max_witness :
    (SyncMsg.mk [1, 4, 7]).CounterValues.length = (sampleCounter 0 [3, 0, 7]).CounterValues.length ∧
    ∃ next, (sampleCounter 0 [3, 0, 7]).UpdateFromMsg (SyncMsg.mk [1, 4, 7]) = .done next ∧
      next = { sampleCounter 0 [3, 0, 7] with CounterValues := next.CounterValues } ∧
      next.CounterValues.length = (sampleCounter 0 [3, 0, 7]).CounterValues.length ∧
      ∀ (i : Nat) (v k : Int), (sampleCounter 0 [3, 0, 7]).CounterValues[i]? = some v →
        (SyncMsg.mk [1, 4, 7]).CounterValues[i]? = some k →
        next.CounterValues[i]? = some (max v k) :=
  ⟨by decide, UpdateFromMsg_slotwise_max (sampleCounter 0 [3, 0, 7]) (SyncMsg.mk [1, 4, 7])
    (by decide)⟩

/-! ## Merge: commutative and idempotent on equal lengths (C2) -/

/-- C2, counterexample. With `A = [1, 2]` and `B = [3]`, `merge A B` returns `[3, 2]` while
`merge B A` indexes past the end of `B` and panics, so the two are not equal. -/
theorem merge_comm_counterexample :
    merge [1, 2] [3] = .done [3, 2] ∧ merge [3] [1, 2] = .indexPanic [3] ∧
      merge [1, 2] [3] ≠ merge [3] [1, 2] := by
  decide

/-- C2, amended. For any two vectors `A` and `B` of the same length, both `merge A B` and
`merge B A` return, `merge A B = merge B A`, and merging `B` into the result of `merge A B` once
more returns that result unchanged. -/
theorem merge_comm_idem (A B : List Int) (hlen : A.length = B.length) :
    ∃ M, merge A B = .done M ∧ merge B A = .done M ∧ merge M B = .done M := by
  refine ⟨List.zipWith max A B, merge_eq_zipWith A B hlen, ?_, ?_⟩
  · rw [merge_eq_zipWith B A hlen.symm]
    congr 1
    apply list_eq_of_slots (by simp [hlen])
    intro j a b ha hb
    simp only [List.getElem?_zipWith] at ha hb
    cases hA : A[j]? <;> cases hB : B[j]? <;> simp [hA, hB] at ha hb
    rw [← ha, ← hb, max_comm]
  · rw [merge_eq_zipWith _ B (by simp [hlen])]
    congr 1
    apply list_eq_of_slots (by simp [hlen])
    intro j a b ha hb
    simp only [List.getElem?_zipWith] at ha hb
    cases hA : A[j]? <;> cases hB : B[j]? <;> simp [hA, hB] at ha hb
    rw [← ha, ← hb]

/-- Instance of the amended C2 at `A = [1, 5]`, `B = [4, 2]`. -/
theorem merge_comm_idem_witness :
    ([1, 5] : List Int).length = ([4, 2] : List Int).length ∧
    ∃ M, merge [1, 5] [4, 2] = .done M ∧ merge [4, 2] [1, 5] = .done M ∧
      merge M [4, 2] = .done M :=
  ⟨by decide, merge_comm_idem [1, 5] [4, 2] (by decide)⟩

/-! ## Lemmas on Go integer arithmetic and on the local sum -/

/-- Wrapping does nothing to a value that already fits. -/
theorem wrapInt_of_isGoInt {x : Int} (h : IsGoInt x) : wrapInt x = x := by
  unfold IsGoInt minInt maxInt at h
  unfold wrapInt
  omega

/-- An intermediate wrap of the left operand does not change the wrapped sum. -/
theorem wrapInt_add_left (a b : Int) : wrapInt (wrapInt a + b) = wrapInt (a + b) := by
  unfold wrapInt
  omega

/-- The wrapped value always fits. -/
theorem isGoInt_wrapInt (x : Int) : IsGoInt (wrapInt x) := by
  unfold IsGoInt minInt maxInt wrapInt
  omega

/-- With a host index in range, the loop of `GetLocalValue` returns the wrapped sum. -/
theorem sumLoop_valid (this : Counter) (u : Int)
    (hhost : goIndex this.CounterValues this.hostId = some u) (vs : List Int) :
    ∀ a : Int, sumLoop this (wrapInt a) vs = some (wrapInt (a + vs.sum)) := by
  induction vs with
  | nil => intro a; simp [sumLoop]
  | cons v rest ih =>
    intro a
    simp only [sumLoop, hhost, wrapInt_add_left, ih, List.sum_cons, add_assoc]

/-- With a host index in range, `GetLocalValue` returns the sum of the slots in Go arithmetic. -/
theorem GetLocalValue_valid (this : Counter) (u : Int)
    (hhost : goIndex this.CounterValues this.hostId = some u) :
    this.GetLocalValue = some (wrapInt this.CounterValues.sum) := by
  have h := sumLoop_valid this u hhost this.CounterValues 0
  have h0 : wrapInt 0 = 0 := by decide
  rw [h0, zero_add] at h
  exact h

/-- A Go index in range, as a fact about `goIndex`. -/
theorem goIndex_of_valid (xs : List Int) (i : Int) (h : 0 ≤ i ∧ i < xs.length) :
    ∃ u, goIndex xs i = some u ∧ xs[i.toNat]? = some u := by
  have hi : i.toNat < xs.length := by omega
  exact ⟨xs[i.toNat], by simp [goIndex, h.1, List.getElem?_eq_getElem hi],
    List.getElem?_eq_getElem hi⟩

/-! ## Snapshots of any length (C9) -/

/-- C9, counterexample. A one-slot counter `[0]` given the two-slot message `[1, 2]` panics with an
index out of range after it has already raised slot 0 to 1; a two-slot counter `[0, 0]` given the
one-slot message `[5]` is not rejected: it returns with the vector `[5, 0]`. -/
theorem UpdateFromMsg_mismatch_counterexample :
    (sampleCounter 0 [0]).UpdateFromMsg (SyncMsg.mk [1, 2])
        = .indexPanic { sampleCounter 0 [0] with CounterValues := [1] } ∧
      (sampleCounter 0 [0, 0]).UpdateFromMsg (SyncMsg.mk [5])
        = .done { sampleCounter 0 [0, 0] with CounterValues := [5, 0] } ∧
      ((sampleCounter 0 [0, 0]).UpdateFromMsg (SyncMsg.mk [5])).state.CounterValues
        ≠ (sampleCounter 0 [0, 0]).CounterValues := by
  decide

/-- C9, amended. `UpdateFromMsg` makes no length check. For every counter state and every message
whose vector is at most as long as the counter's, it returns without an index failure, keeps the
length of `CounterValues` and every other field, leaves in each slot the message covers the maximum
of the old and the incoming value, and leaves the slots past the end of the message unchanged. -/
theorem UpdateFromMsg_no_longer (this : Counter) (msg : SyncMsg)
    (hlen : msg.CounterValues.length ≤ this.CounterValues.length) :
    ∃ next, this.UpdateFromMsg msg = .done next ∧
      next = { this with CounterValues := next.CounterValues } ∧
      next.CounterValues.length = this.CounterValues.length ∧
      (∀ (i : Nat) (v k : Int), this.CounterValues[i]? = some v → msg.CounterValues[i]? = some k →
        next.CounterValues[i]? = some (max v k)) ∧
      (∀ i : Nat, msg.CounterValues.length ≤ i →
        next.CounterValues[i]? = this.CounterValues[i]?) := by
  obtain ⟨out, hrun, hl, hmid, hhigh⟩ := merge_fits this.CounterValues msg.CounterValues hlen
  exact ⟨{ this with CounterValues := out }, UpdateFromMsg_of_merge this msg out hrun, rfl, hl,
    hmid, hhigh⟩

/-- Instance of the amended C9: the vector `[2, 9, 4]` given the shorter message `[6, 1]`. -/
theorem UpdateFromMsg_no_longer_witness :
    (SyncMsg.mk [6, 1]).CounterValues.length ≤ (sampleCounter 1 [2, 9, 4]).CounterValues.length ∧
    ∃ next, (sampleCounter 1 [2, 9, 4]).UpdateFromMsg (SyncMsg.mk [6, 1]) = .done next ∧
      next = { sampleCounter 1 [2, 9, 4] with CounterValues := next.CounterValues } ∧
      next.CounterValues.length = (sampleCounter 1 [2, 9, 4]).CounterValues.length ∧
      (∀ (i : Nat) (v k : Int), (sampleCounter 1 [2, 9, 4]).CounterValues[i]? = some v →
        (SyncMsg.mk [6, 1]).CounterValues[i]? = some k →
        next.CounterValues[i]? = some (max v k)) ∧
      (∀ i : Nat, (SyncMsg.mk [6, 1]).CounterValues.length ≤ i →
        next.CounterValues[i]? = (sampleCounter 1 [2, 9, 4]).CounterValues[i]?) :=
  ⟨by decide, UpdateFromMsg_no_longer (sampleCounter 1 [2, 9, 4]) (SyncMsg.mk [6, 1])
    (by decide)⟩

/-! ## Convergence of a two-way exchange (C6) -/

/-- Merging a vector that is slot-wise below the local one of the same length changes nothing. -/
theorem merge_absorb (A B : List Int) (hlen : A.length = B.length)
    (hle : ∀ (j : Nat) (a b : Int), A[j]? = some a → B[j]? = some b → b ≤ a) :
    merge A B = .done A := by
  rw [merge_eq_zipWith A B hlen]
  congr 1
  apply list_eq_of_slots (by simp [hlen])
  intro j a b ha hb
  simp only [List.getElem?_zipWith] at ha
  cases hA : A[j]? <;> cases hB : B[j]? <;> simp [hA, hB] at ha hb
  have := hle j _ _ hA hB
  rw [← ha, ← hb]
  exact max_eq_left this

/-- Merging a vector that is slot-wise above the local one of the same length yields it. -/
theorem merge_raise (A B : List Int) (hlen : A.length = B.length)
    (hle : ∀ (j : Nat) (a b : Int), A[j]? = some a → B[j]? = some b → a ≤ b) :
    merge A B = .done B := by
  rw [merge_eq_zipWith A B hlen]
  congr 1
  apply list_eq_of_slots (by simp [hlen])
  intro j a b ha hb
  simp only [List.getElem?_zipWith] at ha
  cases hA : A[j]? <;> cases hB : B[j]? <;> simp [hA, hB] at ha hb
  have := hle j _ _ hA hB
  rw [← ha, ← hb]
  exact max_eq_right this

/-- C6, counterexample. Two one-slot counters, `X` with vector `[4]` and host index 2, `Y` with
vector `[7]` and host index 0. After `X` applies the snapshot of `Y` and `Y` applies the snapshot
of `X`, both vectors are `[7]`, but `GetLocalValue` panics on `X` (it indexes `cvLocks[2]`) and
returns 7 on `Y`: it does not return the same number on both. -/
theorem exchange_counterexample :
    (sampleCounter 2 [4]).UpdateFromMsg (sampleCounter 0 [7]).Serialize
        = .done (sampleCounter 2 [7]) ∧
      (sampleCounter 0 [7]).UpdateFromMsg (sampleCounter 2 [7]).Serialize
        = .done (sampleCounter 0 [7]) ∧
      (sampleCounter 2 [7]).GetLocalValue = none ∧
      (sampleCounter 0 [7]).GetLocalValue = some 7 := by
  decide

/-- C6, amended. For any two counters `X` and `Y` with vectors of equal length whose `hostId` is an
index of their vector: when `X` applies the snapshot of `Y` and `Y` then applies the snapshot of
the resulting `X`, both calls return, the two vectors are equal, `GetLocalValue` returns the same
number on both, and a further exchange in either direction returns each counter unchanged. -/
theorem exchange_converges (X Y : Counter)
    (hlen : X.CounterValues.length = Y.CounterValues.length)
    (hX : 0 ≤ X.hostId ∧ X.hostId < X.CounterValues.length)
    (hY : 0 ≤ Y.hostId ∧ Y.hostId < Y.CounterValues.length) :
    ∃ X1 Y1 n, X.UpdateFromMsg Y.Serialize = .done X1 ∧
      Y.UpdateFromMsg X1.Serialize = .done Y1 ∧
      X1.CounterValues = Y1.CounterValues ∧
      X1.GetLocalValue = some n ∧ Y1.GetLocalValue = some n ∧
      X1.UpdateFromMsg Y1.Serialize = .done X1 ∧
      Y1.UpdateFromMsg X1.Serialize = .done Y1 := by
  obtain ⟨M, hAB, hMl, hmax, _⟩ := merge_fits X.CounterValues Y.CounterValues (by omega)
  have hBM : merge Y.CounterValues M = .done M := merge_raise Y.CounterValues M (by omega) (by
    intro j a b ha hb
    have hj : j < X.CounterValues.length := by
      by_contra hcon
      rw [List.getElem?_eq_none (by omega)] at hb
      cases hb
    rw [hmax j _ a (List.getElem?_eq_getElem hj) ha] at hb
    cases hb
    exact le_max_right _ _)
  have hMM : merge M M = .done M := merge_absorb M M rfl (by
    intro j a b ha hb
    rw [ha] at hb
    cases hb
    exact le_refl a)
  obtain ⟨uX, hgX, _⟩ := goIndex_of_valid M X.hostId (by omega)
  obtain ⟨uY, hgY, _⟩ := goIndex_of_valid M Y.hostId (by omega)
  refine ⟨{ X with CounterValues := M }, { Y with CounterValues := M }, wrapInt M.sum,
    UpdateFromMsg_of_merge X Y.Serialize M hAB, ?_, rfl, ?_, ?_, ?_, ?_⟩
  · exact UpdateFromMsg_of_merge Y (Counter.Serialize { X with CounterValues := M }) M hBM
  · exact GetLocalValue_valid { X with CounterValues := M } uX hgX
  · exact GetLocalValue_valid { Y with CounterValues := M } uY hgY
  · exact UpdateFromMsg_of_merge { X with CounterValues := M }
      (Counter.Serialize { Y with CounterValues := M }) M hMM
  · exact UpdateFromMsg_of_merge { Y with CounterValues := M }
      (Counter.Serialize { X with CounterValues := M }) M hMM

/-- Instance of the amended C6: host 0 with vector `[5, 0, 2]` and host 1 with `[3, 4, 2]`. -/
theorem exchange_converges_witness :
    ((sampleCounter 0 [5, 0, 2]).CounterValues.length
        = (sampleCounter 1 [3, 4, 2]).CounterValues.length ∧
      (0 ≤ (sampleCounter 0 [5, 0, 2]).hostId ∧
        (sampleCounter 0 [5, 0, 2]).hostId < (sampleCounter 0 [5, 0, 2]).CounterValues.length) ∧
      (0 ≤ (sampleCounter 1 [3, 4, 2]).hostId ∧
        (sampleCounter 1 [3, 4, 2]).hostId < (sampleCounter 1 [3, 4, 2]).CounterValues.length)) ∧
    ∃ X1 Y1 n, (sampleCounter 0 [5, 0, 2]).UpdateFromMsg (sampleCounter 1 [3, 4, 2]).Serialize
        = .done X1 ∧
      (sampleCounter 1 [3, 4, 2]).UpdateFromMsg X1.Serialize = .done Y1 ∧
      X1.CounterValues = Y1.CounterValues ∧
      X1.GetLocalValue = some n ∧ Y1.GetLocalValue = some n ∧
      X1.UpdateFromMsg Y1.Serialize = .done X1 ∧
      Y1.UpdateFromMsg X1.Serialize = .done Y1 :=
  ⟨by decide, exchange_converges (sampleCounter 0 [5, 0, 2]) (sampleCounter 1 [3, 4, 2])
    (by decide) (by decide) (by decide)⟩

/-! ## Add (C4, C7, C8) -/

/-- With a host index in range, `Add` returns after storing the wrapped sum in the host slot. -/
theorem Add_valid (this : Counter) (delta : Int)
    (hhost : 0 ≤ this.hostId ∧ this.hostId < this.CounterValues.length) :
    ∃ v, goIndex this.CounterValues this.hostId = some v ∧
      this.CounterValues[this.hostId.toNat]? = some v ∧
      this.Add delta = .done { this with
        CounterValues := this.CounterValues.set this.hostId.toNat (wrapInt (v + delta)) } := by
  obtain ⟨v, hg, hv⟩ := goIndex_of_valid this.CounterValues this.hostId hhost
  exact ⟨v, hg, hv, by simp only [Counter.Add, hg]⟩

/-- Sum of a list after one entry is overwritten. -/
theorem sum_set (xs : List Int) : ∀ (i : Nat) (v a : Int), xs[i]? = some v →
    (xs.set i a).sum = xs.sum - v + a := by
  induction xs with
  | nil => intro i v a h; simp at h
  | cons x rest ih =>
    intro i v a h
    cases i with
    | zero =>
      simp only [List.getElem?_cons_zero, Option.some.injEq] at h
      subst h
      simp only [List.set_cons_zero, List.sum_cons]
      omega
    | succ i =>
      simp only [List.getElem?_cons_succ] at h
      simp only [List.set_cons_succ, List.sum_cons, ih i v a h]
      omega

/-- C8. For every counter state whose `hostId` is an index of `CounterValues` and every delta,
`Add` returns, every slot other than `hostId` is unchanged, the vector keeps its length, and the
name, the actors, the host index and both arrays of in-flight flags are unchanged. -/
theorem Add_frame (this : Counter) (delta : Int)
    (hhost : 0 ≤ this.hostId ∧ this.hostId < this.CounterValues.length) :
    ∃ next, this.Add delta = .done next ∧
      (∀ i : Nat, (i : Int) ≠ this.hostId → next.CounterValues[i]? = this.CounterValues[i]?) ∧
      next.CounterValues.length = this.CounterValues.length ∧
      next.name = this.name ∧ next.actors = this.actors ∧ next.hostId = this.hostId ∧
      next.markedForPush = this.markedForPush ∧ next.markedForPull = this.markedForPull := by
  obtain ⟨v, _, _, hrun⟩ := Add_valid this delta hhost
  refine ⟨_, hrun, ?_, by simp, rfl, rfl, rfl, rfl, rfl⟩
  intro i hi
  have hne : this.hostId.toNat ≠ i := by omega
  simp only [List.getElem?_set_ne hne]

/-- Instance of C8: host 1 of three, vector `[4, 6, 1]`, delta 10. -/
theorem Add_frame_witness :
    (0 ≤ (sampleCounter 1 [4, 6, 1]).hostId ∧
      (sampleCounter 1 [4, 6, 1]).hostId < (sampleCounter 1 [4, 6, 1]).CounterValues.length) ∧
    ∃ next, (sampleCounter 1 [4, 6, 1]).Add 10 = .done next ∧
      (∀ i : Nat, (i : Int) ≠ (sampleCounter 1 [4, 6, 1]).hostId →
        next.CounterValues[i]? = (sampleCounter 1 [4, 6, 1]).CounterValues[i]?) ∧
      next.CounterValues.length = (sampleCounter 1 [4, 6, 1]).CounterValues.length ∧
      next.name = (sampleCounter 1 [4, 6, 1]).name ∧
      next.actors = (sampleCounter 1 [4, 6, 1]).actors ∧
      next.hostId = (sampleCounter 1 [4, 6, 1]).hostId ∧
      next.markedForPush = (sampleCounter 1 [4, 6, 1]).markedForPush ∧
      next.markedForPull = (sampleCounter 1 [4, 6, 1]).markedForPull :=
  ⟨by decide, Add_frame (sampleCounter 1 [4, 6, 1]) 10 (by decide)⟩

/-- C4, counterexample. On the one-slot counter `[5]` of host 0, `Add(-3)` returns with the vector
`[2]`: the negative delta is applied as it is and the host slot is lower than before. -/
theorem Add_negative_counterexample :
    (sampleCounter 0 [5]).Add (-3) = .done (sampleCounter 0 [2]) ∧
      goIndex (sampleCounter 0 [5]).CounterValues (sampleCounter 0 [5]).hostId = some 5 ∧
      goIndex (sampleCounter 0 [2]).CounterValues (sampleCounter 0 [2]).hostId = some 2 ∧
      (2 : Int) < 5 := by
  decide

/-- C4, amended. `Add` applies every delta as it is, whatever its sign: for every counter state
whose `hostId` is an index of `CounterValues` and every delta, `Add` returns and the host slot then
holds the old value plus the delta in Go `int` arithmetic, which is exactly the old value plus the
delta whenever that fits in an `int`; a negative delta then leaves the slot strictly lower. -/
theorem Add_applies_delta (this : Counter) (delta : Int)
    (hhost : 0 ≤ this.hostId ∧ this.hostId < this.CounterValues.length) :
    ∃ old next new, goIndex this.CounterValues this.hostId = some old ∧
      this.Add delta = .done next ∧
      goIndex next.CounterValues next.hostId = some new ∧
      new = wrapInt (old + delta) ∧
      (IsGoInt (old + delta) → new = old + delta) ∧
      (IsGoInt (old + delta) → delta < 0 → new < old) := by
  obtain ⟨v, hg, _, hrun⟩ := Add_valid this delta hhost
  have hi : this.hostId.toNat < this.CounterValues.length := by omega
  refine ⟨v, _, wrapInt (v + delta), hg, hrun, ?_, rfl, wrapInt_of_isGoInt, ?_⟩
  · simp [goIndex, hhost.1, List.getElem?_set_self hi]
  · intro hfit hneg
    rw [wrapInt_of_isGoInt hfit]
    omega

/-- Instance of the amended C4: host 0 of two, vector `[9, 1]`, delta `-4`. -/
theorem Add_applies_delta_witness :
    (0 ≤ (sampleCounter 0 [9, 1]).hostId ∧
      (sampleCounter 0 [9, 1]).hostId < (sampleCounter 0 [9, 1]).CounterValues.length) ∧
    ∃ old next new,
      goIndex (sampleCounter 0 [9, 1]).CounterValues (sampleCounter 0 [9, 1]).hostId = some old ∧
      (sampleCounter 0 [9, 1]).Add (-4) = .done next ∧
      goIndex next.CounterValues next.hostId = some new ∧
      new = wrapInt (old + -4) ∧
      (IsGoInt (old + -4) → new = old + -4) ∧
      (IsGoInt (old + -4) → (-4 : Int) < 0 → new < old) :=
  ⟨by decide, Add_applies_delta (sampleCounter 0 [9, 1]) (-4) (by decide)⟩

/-- `GetLocalValue` before and after an `Add`, for a host index in range. -/
theorem GetLocalValue_after_Add (this : Counter) (delta : Int)
    (hhost : 0 ≤ this.hostId ∧ this.hostId < this.CounterValues.length) :
    ∃ next, this.Add delta = .done next ∧
      this.GetLocalValue = some (wrapInt this.CounterValues.sum) ∧
      next.GetLocalValue = some (wrapInt (wrapInt this.CounterValues.sum + delta)) := by
  obtain ⟨v, hg, hv, hrun⟩ := Add_valid this delta hhost
  have hi : this.hostId.toNat < this.CounterValues.length := by omega
  refine ⟨_, hrun, GetLocalValue_valid this v hg, ?_⟩
  have hg2 : goIndex (this.CounterValues.set this.hostId.toNat (wrapInt (v + delta))) this.hostId
      = some (wrapInt (v + delta)) := by
    simp [goIndex, hhost.1, List.getElem?_set_self hi]
  rw [GetLocalValue_valid _ _ hg2]
  simp only [sum_set _ _ _ _ hv]
  congr 1
  unfold wrapInt
  omega

/-- The vector of a fresh counter sums to zero. -/
theorem SpawnCounter_sum (name : String) (actors : List String) (hostId : Int) :
    (SpawnCounter name actors hostId).CounterValues.sum = 0 := by
  simp [SpawnCounter]

/-- C7. `GetLocalValue` returns the sum of all slots of `CounterValues` in Go `int` arithmetic
(the mathematical sum whenever that fits in an `int`). For every counter whose `hostId` is an index
of its vector and every delta, `GetLocalValue` after `Add(delta)` returns the value it returned
before plus the delta, again in Go `int` arithmetic. On a freshly spawned counter `Add(delta)`
followed by `GetLocalValue` returns `delta`, and `GetLocalValue` on another freshly spawned counter
returns 0. -/
theorem GetLocalValue_sum_and_Add (this : Counter) (delta : Int) (name : String)
    (actors : List String) (hostId otherId : Int)
    (hhost : 0 ≤ this.hostId ∧ this.hostId < this.CounterValues.length)
    (hdelta : IsGoInt delta)
    (hfresh : 0 ≤ hostId ∧ hostId < actors.length)
    (hother : 0 ≤ otherId ∧ otherId < actors.length) :
    (∃ before next after, this.GetLocalValue = some before ∧
      before = wrapInt this.CounterValues.sum ∧
      (IsGoInt this.CounterValues.sum → before = this.CounterValues.sum) ∧
      this.Add delta = .done next ∧ next.GetLocalValue = some after ∧
      after = wrapInt (before + delta) ∧
      (IsGoInt (before + delta) → after = before + delta)) ∧
    (∃ next, (SpawnCounter name actors hostId).Add delta = .done next ∧
      next.GetLocalValue = some delta) ∧
    (SpawnCounter name actors otherId).GetLocalValue = some 0 := by
  refine ⟨?_, ?_, ?_⟩
  · obtain ⟨next, hrun, hbefore, hafter⟩ := GetLocalValue_after_Add this delta hhost
    exact ⟨_, next, _, hbefore, rfl, wrapInt_of_isGoInt, hrun, hafter, rfl, wrapInt_of_isGoInt⟩
  · obtain ⟨next, hrun, _, hafter⟩ :=
      GetLocalValue_after_Add (SpawnCounter name actors hostId) delta
        (by simpa [SpawnCounter] using hfresh)
    refine ⟨next, hrun, ?_⟩
    rw [hafter, SpawnCounter_sum]
    have h0 : wrapInt 0 = 0 := by decide
    rw [h0, zero_add, wrapInt_of_isGoInt hdelta]
  · obtain ⟨u, hg, _⟩ := goIndex_of_valid (SpawnCounter name actors otherId).CounterValues otherId
      (by simpa [SpawnCounter] using hother)
    rw [GetLocalValue_valid (SpawnCounter name actors otherId) u hg, SpawnCounter_sum]
    decide

/-- Instance of C7: three actors, `Add(5)` on the fresh counter of actor 0 gives 5, the fresh
counter of actor 1 gives 0; the general part is taken at host 1 with vector `[4, 6, 1]`. -/
theorem GetLocalValue_sum_and_Add_witness :
    ((0 ≤ (sampleCounter 1 [4, 6, 1]).hostId ∧
        (sampleCounter 1 [4, 6, 1]).hostId < (sampleCounter 1 [4, 6, 1]).CounterValues.length) ∧
      IsGoInt 5 ∧
      ((0 : Int) ≤ 0 ∧ (0 : Int) < ["10.0.0.1", "10.0.0.2", "10.0.0.3"].length) ∧
      ((0 : Int) ≤ 1 ∧ (1 : Int) < ["10.0.0.1", "10.0.0.2", "10.0.0.3"].length)) ∧
    ((∃ before next after, (sampleCounter 1 [4, 6, 1]).GetLocalValue = some before ∧
      before = wrapInt (sampleCounter 1 [4, 6, 1]).CounterValues.sum ∧
      (IsGoInt (sampleCounter 1 [4, 6, 1]).CounterValues.sum →
        before = (sampleCounter 1 [4, 6, 1]).CounterValues.sum) ∧
      (sampleCounter 1 [4, 6, 1]).Add 5 = .done next ∧ next.GetLocalValue = some after ∧
      after = wrapInt (before + 5) ∧
      (IsGoInt (before + 5) → after = before + 5)) ∧
    (∃ next, (SpawnCounter "hits" ["10.0.0.1", "10.0.0.2", "10.0.0.3"] 0).Add 5 = .done next ∧
      next.GetLocalValue = some 5) ∧
    (SpawnCounter "hits" ["10.0.0.1", "10.0.0.2", "10.0.0.3"] 1).GetLocalValue = some 0) :=
  ⟨by decide, GetLocalValue_sum_and_Add (sampleCounter 1 [4, 6, 1]) 5 "hits"
    ["10.0.0.1", "10.0.0.2", "10.0.0.3"] 0 1 (by decide) (by decide) (by decide) (by decide)⟩

/-! ## Monotone slots along a run (C3) -/

/-- The slot-wise order is reflexive. -/
theorem SlotsLe.refl (a : List Int) : SlotsLe a a :=
  fun _ v h => ⟨v, h, le_refl v⟩

/-- The slot-wise order is transitive. -/
theorem SlotsLe.trans {a b c : List Int} (hab : SlotsLe a b) (hbc : SlotsLe b c) : SlotsLe a c := by
  intro slot v hv
  obtain ⟨w, hw, hvw⟩ := hab slot v hv
  obtain ⟨x, hx, hwx⟩ := hbc slot w hw
  exact ⟨x, hx, le_trans hvw hwx⟩

/-- The vector left by `UpdateFromMsg` is the one left by its loop. -/
theorem UpdateFromMsg_state (this : Counter) (msg : SyncMsg) :
    (this.UpdateFromMsg msg).state.CounterValues
      = (updateLoop this.CounterValues 0 msg.CounterValues).state := by
  unfold Counter.UpdateFromMsg
  cases updateLoop this.CounterValues 0 msg.CounterValues <;> rfl

/-- One call of a run whose adds are in range never lowers a slot, and the rest of the run still
has its adds in range. -/
theorem call_slotsLe (c : Counter) (op : Op) (ops : List Op)
    (h : addsInRange c (op :: ops) = true) :
    SlotsLe c.CounterValues (c.call op).state.CounterValues ∧
      addsInRange (c.call op).state ops = true := by
  cases op with
  | add delta =>
    simp only [addsInRange, Bool.and_eq_true, decide_eq_true_eq] at h
    obtain ⟨⟨hnonneg, hfit⟩, hrest⟩ := h
    refine ⟨?_, hrest⟩
    simp only [Counter.call, Counter.Add]
    cases hg : goIndex c.CounterValues c.hostId with
    | none => exact SlotsLe.refl _
    | some old =>
      rw [hg] at hfit
      simp only [decide_eq_true_eq] at hfit
      simp only [Outcome.state, wrapInt_of_isGoInt hfit]
      intro slot v hv
      by_cases hs : c.hostId.toNat = slot
      · subst hs
        have hi : c.hostId.toNat < c.CounterValues.length := by
          by_contra hcon
          rw [List.getElem?_eq_none (by omega)] at hv
          cases hv
        have hold : c.CounterValues[c.hostId.toNat]? = some old := by
          unfold goIndex at hg
          split at hg
          · exact hg
          · cases hg
        rw [hold] at hv
        cases hv
        exact ⟨old + delta, List.getElem?_set_self hi, by omega⟩
      · exact ⟨v, by rw [List.getElem?_set_ne hs]; exact hv, le_refl v⟩
  | updateFromMsg msg =>
    simp only [addsInRange] at h
    refine ⟨?_, h⟩
    simp only [Counter.call, UpdateFromMsg_state]
    exact (updateLoop_state msg.CounterValues c.CounterValues 0).2

/-- Every observation point of a run whose adds are in range is slot-wise above the start. -/
theorem observations_above_start (ops : List Op) : ∀ (c : Counter),
    addsInRange c ops = true → ∀ later ∈ observations c ops,
      SlotsLe c.CounterValues later.CounterValues := by
  induction ops with
  | nil =>
    intro c _ later hmem
    simp only [observations, List.mem_singleton] at hmem
    subst hmem
    exact SlotsLe.refl _
  | cons op ops ih =>
    intro c h later hmem
    obtain ⟨hstep, hrest⟩ := call_slotsLe c op ops h
    simp only [observations, List.mem_cons] at hmem
    rcases hmem with hmem | hmem
    · subst hmem
      exact SlotsLe.refl _
    · exact SlotsLe.trans hstep (ih _ hrest later hmem)

/-- C3, counterexample. On the one-slot counter `[5]` of host 0 the run `Add(-3)` is observed as
`[5]` then `[2]`: the slot fell. The same happens with a positive delta that overflows: from the
vector `[maxInt]` the run `Add(1)` is observed as `[maxInt]` then `[minInt]`. -/
theorem monotone_counterexample :
    observations (sampleCounter 0 [5]) [.add (-3)] = [sampleCounter 0 [5], sampleCounter 0 [2]] ∧
      (2 : Int) < 5 ∧
      observations (sampleCounter 0 [maxInt]) [.add 1]
        = [sampleCounter 0 [maxInt], sampleCounter 0 [minInt]] ∧
      minInt < maxInt := by
  decide

/-- C3, amended. For every counter state and every finite sequence of `Add(delta)` and
`UpdateFromMsg(msg)` calls in which every delta is non-negative and no `Add` overflows the host
slot (any messages), every slot of `CounterValues` at a later observation point exists and is
greater than or equal to its value at every earlier observation point. -/
theorem slots_monotone (c : Counter) (ops : List Op) (hrange : addsInRange c ops = true) :
    ∀ (i j : Nat) (earlier later : Counter), i ≤ j →
      (observations c ops)[i]? = some earlier → (observations c ops)[j]? = some later →
      ∀ (slot : Nat) (v : Int), earlier.CounterValues[slot]? = some v →
        ∃ w, later.CounterValues[slot]? = some w ∧ v ≤ w := by
  induction ops generalizing c with
  | nil =>
    intro i j earlier later _ hi hj
    have h1 := List.getElem?_mem hi
    have h2 := List.getElem?_mem hj
    simp only [observations, List.mem_singleton] at h1 h2
    subst h1; subst h2
    exact SlotsLe.refl _
  | cons op ops ih =>
    intro i j earlier later hij hi hj
    obtain ⟨_, hrest⟩ := call_slotsLe c op ops hrange
    cases i with
    | zero =>
      simp only [observations, List.getElem?_cons_zero, Option.some.injEq] at hi
      subst hi
      exact observations_above_start (op :: ops) c hrange later (List.getElem?_mem hj)
    | succ i =>
      cases j with
      | zero => omega
      | succ j =>
        simp only [observations, List.getElem?_cons_succ] at hi hj
        exact ih _ hrest i j earlier later (by omega) hi hj

/-- Instance of the amended C3: from `[1, 2]` on host 0, the run `Add(3)`, a two-slot message,
`Add(0)`, and a three-slot message that ends in a panic. -/
theorem slots_monotone_witness :
    addsInRange (sampleCounter 0 [1, 2])
        [.add 3, .updateFromMsg (SyncMsg.mk [0, 7]), .add 0,
          .updateFromMsg (SyncMsg.mk [9, 9, 9])] = true ∧
    ∀ (i j : Nat) (earlier later : Counter), i ≤ j →
      (observations (sampleCounter 0 [1, 2])
        [.add 3, .updateFromMsg (SyncMsg.mk [0, 7]), .add 0,
          .updateFromMsg (SyncMsg.mk [9, 9, 9])])[i]? = some earlier →
      (observations (sampleCounter 0 [1, 2])
        [.add 3, .updateFromMsg (SyncMsg.mk [0, 7]), .add 0,
          .updateFromMsg (SyncMsg.mk [9, 9, 9])])[j]? = some later →
      ∀ (slot : Nat) (v : Int), earlier.CounterValues[slot]? = some v →
        ∃ w, later.CounterValues[slot]? = some w ∧ v ≤ w :=
  ⟨by decide, slots_monotone (sampleCounter 0 [1, 2])
    [.add 3, .updateFromMsg (SyncMsg.mk [0, 7]), .add 0, .updateFromMsg (SyncMsg.mk [9, 9, 9])]
    (by decide)⟩

/-! ## Push backoff (C5) -/

/-- The backoff only ever takes one of ten values. -/
theorem backoffAfter_mem (n : Nat) : backoffAfter n ∈ backoffValues := by
  induction n with
  | zero => decide
  | succ n ih =>
    have hstep : ∀ b ∈ backoffValues, nextBackoff b ∈ backoffValues := by decide
    exact hstep _ ih

/-- From the ninth failure on the backoff stays at 5120. -/
theorem backoffAfter_stable (k : Nat) : backoffAfter (9 + k) = 5120 := by
  induction k with
  | zero => decide
  | succ k ih =>
    show nextBackoff (backoffAfter (9 + k)) = 5120
    rw [ih]
    decide

/-- The retry loop sleeps, at its `n`-th consecutive failure, for the duration computed from the
backoff reached after `n` failures. -/
theorem retrySleeps_getElem? (draws : List Int) : ∀ (m n : Nat),
    (retrySleeps (backoffAfter m) draws)[n]?
      = (draws[n]?).map (sleepDuration (backoffAfter (m + n))) := by
  induction draws with
  | nil => intro m n; simp [retrySleeps]
  | cons jitter draws ih =>
    intro m n
    cases n with
    | zero => simp [retrySleeps]
    | succ n =>
      have h := ih (m + 1) n
      have hidx : m + 1 + n = m + (n + 1) := by omega
      rw [hidx] at h
      simpa only [retrySleeps, List.getElem?_cons_succ, backoffAfter] using h

/-- C5, counterexample. After 9 consecutive failures the backoff is 5120, and with the jitter draw
0 the loop sleeps 5120 time-units; already after 8 failures the backoff is 2560 and the admissible
jitter draw 1279 gives a sleep of 3839. Both exceed 3000. -/
theorem backoff_cap_counterexample :
    backoffAfter 9 = 5120 ∧
      ((0 : Int) ≤ 0 ∧ 0 < jitterBound (backoffAfter 9)) ∧
      sleepDuration (backoffAfter 9) 0 = 5120 ∧
      ¬ sleepDuration (backoffAfter 9) 0 ≤ 3000 ∧
      backoffAfter 8 = 2560 ∧
      ((0 : Int) ≤ 1279 ∧ 1279 < jitterBound (backoffAfter 8)) ∧
      sleepDuration (backoffAfter 8) 1279 = 3839 ∧
      ¬ sleepDuration (backoffAfter 8) 1279 ≤ 3000 := by
  decide

/-- C5, amended. In `syncToNeighborSingletonWithBackoff`, where the backoff starts at 10 and is
doubled after each failure while it is below 3000, for every number `n` of consecutive failures and
every jitter draw below half the backoff: the backoff is at most 5120 (and exactly 5120 from the
ninth failure on), and the delay slept before the next retry, the backoff plus its jitter, never
exceeds 7679 time-units. -/
theorem backoff_delay_bound (n : Nat) (jitter : Int)
    (hjitter : 0 ≤ jitter ∧ jitter < jitterBound (backoffAfter n)) :
    backoffAfter n ≤ 5120 ∧ (9 ≤ n → backoffAfter n = 5120) ∧
      sleepDuration (backoffAfter n) jitter = backoffAfter n + jitter ∧
      sleepDuration (backoffAfter n) jitter ≤ 7679 := by
  have hvals : ∀ b ∈ backoffValues, 10 ≤ b ∧ b ≤ 5120 ∧ jitterBound b ≤ 2560 := by decide
  obtain ⟨hlow, hhigh, hbound⟩ := hvals _ (backoffAfter_mem n)
  have hfit : IsGoInt (backoffAfter n + jitter) := by
    unfold IsGoInt minInt maxInt
    omega
  refine ⟨hhigh, ?_, ?_, ?_⟩
  · intro h9
    obtain ⟨k, rfl⟩ := Nat.exists_eq_add_of_le h9
    exact backoffAfter_stable k
  · exact wrapInt_of_isGoInt hfit
  · unfold sleepDuration
    rw [wrapInt_of_isGoInt hfit]
    omega

/-- Instance of the amended C5: 12 consecutive failures, jitter draw 2559. -/
theorem backoff_delay_bound_witness :
    ((0 : Int) ≤ 2559 ∧ 2559 < jitterBound (backoffAfter 12)) ∧
    (backoffAfter 12 ≤ 5120 ∧ (9 ≤ 12 → backoffAfter 12 = 5120) ∧
      sleepDuration (backoffAfter 12) 2559 = backoffAfter 12 + 2559 ∧
      sleepDuration (backoffAfter 12) 2559 ≤ 7679) :=
  ⟨by decide, backoff_delay_bound 12 2559 (by decide)⟩

/-! ## Singleton guards (C10) -/

/-- Wherever `actorNum` indexes `markedForPull`, the entry section of the pull wrapper does exactly
what the entry section of the push wrapper does: it tests and sets `markedForPush[actorNum]`. -/
theorem pullGuard_eq_pushGuard (this : Counter) (actorNum : Int) (flag : Int)
    (h : goIndex this.markedForPull actorNum = some flag) :
    this.syncFromNeighborSingletonGuard actorNum
      = this.syncToNeighborSingletonWithBackoffGuard actorNum := by
  simp only [Counter.syncFromNeighborSingletonGuard, h,
    Counter.syncToNeighborSingletonWithBackoffGuard]

/-- C10, the code at the failing inputs. With the push flag of peer 0 set and its pull flag clear,
the guard of `syncFromNeighborSingleton(0)` skips the pull. With the push flag clear and the pull
flag set, it lets the pull proceed and sets `markedForPush[0]`, leaving `markedForPull` as it was.
The guard of `syncToNeighborSingletonWithBackoff(0)` gives the same two results on the same two
states. -/
theorem pullGuard_aliases_push_flag :
    (flaggedCounter [1] [0]).syncFromNeighborSingletonGuard 0
        = .skipped (flaggedCounter [1] [0]) ∧
      (flaggedCounter [0] [1]).syncFromNeighborSingletonGuard 0
        = .proceeds (flaggedCounter [1] [1]) ∧
      (flaggedCounter [1] [0]).syncToNeighborSingletonWithBackoffGuard 0
        = .skipped (flaggedCounter [1] [0]) ∧
      (flaggedCounter [0] [1]).syncToNeighborSingletonWithBackoffGuard 0
        = .proceeds (flaggedCounter [1] [1]) := by
  decide
end CounterDb
